import Mathlib

/-!
Verification of the streaming chat client (response assembler, execution
stub, persistence helpers and session controller glue).

The TypeScript sources are shallowly embedded: strings are `List Char`
(wrapped in `String` at the interfaces), the fence-extraction regex
`/(three backticks)(\w+)?\n([\s\S]*?)(three backticks)/g` is modelled by an
explicit leftmost-match scanner, and the stateful React handlers become
explicit state-passing functions on a `ChatStateM` record.
-/

/-- The backtick character, ```. -/
def bq : Char := Char.ofNat 96

/-- The newline character. -/
def nl : Char := Char.ofNat 10

/-- The carriage-return character (a JS line terminator, excluded by `.`). -/
def crChar : Char := Char.ofNat 13

/-- Message role, from `types.ts`: `'user' | 'model'`. -/
inductive Role where
  | user
  | model
deriving DecidableEq, Repr

/-- `ImageData` from `types.ts`. -/
structure ImageData where
  dataUrl : String
  mimeType : String
deriving DecidableEq, Repr

/-- `CodeBlock` from `types.ts`; the extractor pushes objects with only
`language` and `code` set, so the execution fields default to `none`. -/
structure CodeBlock where
  language : String
  code : String
  executionResult : Option String := none
  executionStatus : Option String := none
deriving DecidableEq, Repr

/-- `Message` from `types.ts`.  Optional JS fields become `Option`s
(`none` models an absent/undefined property). -/
structure Message where
  role : Role
  parts : String
  isStreaming : Option Bool := none
  thinking : Option String := none
  codeBlocks : Option (List CodeBlock) := none
  images : Option (List ImageData) := none
  timestamp : Option Nat := none
  hasImages : Option Bool := none
deriving DecidableEq, Repr

/-- JS truthiness of a possibly-absent boolean (`undefined` is falsy). -/
def jsTruthy : Option Bool → Bool
  | none => false
  | some b => b

/-- A `\w` character of the JS regex engine: `[A-Za-z0-9_]`. -/
def isWordChar (c : Char) : Bool := c.isAlphanum || c = '_'

/-- Splits a text into its maximal leading `\w+` run and the remainder,
modelling the greedy `(\w+)?` group of the fence regex. -/
def takeWordRun : List Char → List Char × List Char
  | [] => ([], [])
  | c :: cs =>
    if isWordChar c then
      let p := takeWordRun cs
      (c :: p.1, p.2)
    else ([], c :: cs)

/-- Whether the text begins with a backtick. -/
def startsBq : List Char → Bool
  | c :: _ => c = bq
  | [] => false

/-- Whether the text begins with three consecutive backticks. -/
def hasTicks3 (s : List Char) : Bool :=
  startsBq s && startsBq (s.drop 1) && startsBq (s.drop 2)

/-- First occurrence of a closing triple backtick: returns the (lazy,
shortest) body before it and the text after it, modelling `([\s\S]*?)`
followed by the closing delimiter. -/
def findClose : List Char → Option (List Char × List Char)
  | [] => none
  | a :: rest =>
    if hasTicks3 (a :: rest) then some ([], rest.drop 2)
    else Option.map (fun p => (a :: p.1, p.2)) (findClose rest)

/-- After an opening triple backtick: reads the optional language tag, the
mandatory newline, and the lazily-matched body up to the closing
delimiter.  Returns `(tag run, body, rest after the close)`. -/
def matchAfterTicks (t : List Char) : Option (List Char × List Char × List Char) :=
  match takeWordRun t with
  | (w, d :: r2) =>
    if d = nl then
      match findClose r2 with
      | some p => some (w, p.1, p.2)
      | none => none
    else none
  | (_, []) => none

/-- Attempt of the fence regex at the current position. -/
def matchAt (s : List Char) : Option (List Char × List Char × List Char) :=
  if hasTicks3 s then matchAfterTicks (s.drop 3) else none

/-- JS `String.prototype.trim` whitespace (restricted to the ASCII
whitespace that `Char.isWhitespace` covers). -/
def isJsSpace (c : Char) : Bool := c.isWhitespace

/-- Trims whitespace from both ends. -/
def trimChars (s : List Char) : List Char :=
  ((s.dropWhile isJsSpace).reverse.dropWhile isJsSpace).reverse

/-- Builds the pushed code block from a match: `match[1]?.toLowerCase() ||
'text'` and `match[2].trim()` (gemini.ts lines 30-33). -/
def mkBlock (langRun body : List Char) : CodeBlock :=
  { language := if langRun = [] then "text" else List.asString (langRun.map Char.toLower)
    code := List.asString (trimChars body) }

/-- Fuelled leftmost-match scan of the global fence regex: at each
position try a match; on success emit the block and continue after the
match (the JS `lastIndex`), otherwise advance one character.  Fuel is
consumed once per step, so `s.length` fuel always suffices. -/
def scanBlocksF : Nat → List Char → List CodeBlock
  | 0, _ => []
  | _ + 1, [] => []
  | fuel + 1, c :: cs =>
    match matchAt (c :: cs) with
    | some (l, b, r) => mkBlock l b :: scanBlocksF fuel r
    | none => scanBlocksF fuel cs

/-- The scanner at its canonical fuel. -/
def extractL (s : List Char) : List CodeBlock := scanBlocksF s.length s

/-- `extractCodeBlocks` from `gemini.ts` lines 23-37. -/
def extractCodeBlocks (markdown : String) : List CodeBlock := extractL markdown.data

/-- A well-formed fence as rendered text: three backticks, the tag, a
newline, the body, three backticks. -/
def fenceOf (lang body : List Char) : List Char :=
  bq :: bq :: bq :: (lang ++ nl :: (body ++ [bq, bq, bq]))

/-- An unclosed opening fence: three backticks, the tag and the newline,
with no closing delimiter yet. -/
def openFence (lang : List Char) : List Char :=
  bq :: bq :: bq :: (lang ++ [nl])

/-- A document made of alternating plain segments and well-formed fences,
ending in a final plain segment: the shape "text containing N well-formed
triple-backtick fences". -/
def renderDoc : List (List Char × List Char × List Char) → List Char → List Char
  | [], fin => fin
  | (sep, lang, body) :: rest, fin => sep ++ fenceOf lang body ++ renderDoc rest fin

/-- Well-formedness of one `(separator, tag, body)` piece: the separator
and body contain no backtick and the tag is a `\w+` run (possibly empty). -/
abbrev WFpiece (p : List Char × List Char × List Char) : Prop :=
  (∀ c ∈ p.1, c ≠ bq) ∧ (∀ c ∈ p.2.1, isWordChar c) ∧ (∀ c ∈ p.2.2, c ≠ bq)

/-- The block a well-formed piece extracts to. -/
def pieceBlock (p : List Char × List Char × List Char) : CodeBlock :=
  mkBlock p.2.1 p.2.2

/-! Thinking extraction (gemini.ts lines 196-214): the preliminary
response is matched against a case-insensitive regex that locates the
sentinel `Let me think through this step by step:` and lazily captures
up to the first terminating cue phrase; on a match the captured group is
trimmed, otherwise the text is left unchanged. -/

/-- Case-insensitive character comparison (the regex `i` flag). -/
def ciEq (a b : Char) : Bool := a.toLower = b.toLower

/-- If the text begins with the pattern (case-insensitively), drops it. -/
def dropCI : List Char → List Char → Option (List Char)
  | [], t => some t
  | _ :: _, [] => none
  | p :: ps, c :: cs => if ciEq p c then dropCI ps cs else none

/-- Text after the first case-insensitive occurrence of the pattern. -/
def afterCI (pat : List Char) : List Char → Option (List Char)
  | [] => dropCI pat []
  | c :: cs =>
    match dropCI pat (c :: cs) with
    | some r => some r
    | none => afterCI pat cs

/-- Whether the text begins with the pattern, case-insensitively. -/
def startsCI (pat t : List Char) : Bool := (dropCI pat t).isSome

/-- The sentinel phrase of the thinking regex. -/
def sentinelStr : String := "Let me think through this step by step:"

/-- The sentinel as characters. -/
def sentinelChars : List Char := sentinelStr.data

/-- The sentinel after its first character. -/
def sentinelTail : List Char := "et me think through this step by step:".data

/-- The terminating cue alternatives of the thinking regex. -/
def cueStrs : List String :=
  ["In conclusion", "Therefore", "To summarize", "In summary", "The answer is"]

/-- Whether some cue phrase matches at the current position. -/
def cueAt (t : List Char) : Bool := cueStrs.any (fun c => startsCI c.data t)

/-- The text before the first position where a cue phrase matches. -/
def beforeCue : List Char → Option (List Char)
  | [] => none
  | c :: cs =>
    if cueAt (c :: cs) then some []
    else Option.map (fun r => c :: r) (beforeCue cs)

/-- The thinking post-processing of gemini.ts lines 204-209: when the
regex matches AND the captured group is truthy — the guard is
`if (thinkingMatch && thinkingMatch[1])`, and an empty captured group is
falsy — the group (text between the sentinel and the first cue) is
trimmed; otherwise — no sentinel, no cue phrase after the sentinel, or
an empty capture — the preliminary response is kept unchanged. -/
def extractThinking (t : String) : String :=
  match afterCI sentinelChars t.data with
  | none => t
  | some rest =>
    match beforeCue rest with
    | none => t
    | some grp => if grp = [] then t else List.asString (trimChars grp)

/-- Formalisation of the CLAIM's words, not of the code: the text
following the sentinel, trimmed, up to the first terminating cue phrase
or, when no cue phrase occurs, up to the end of the text.  `none` when
the sentinel is absent (the claim is silent there).  Kept distinct from
`extractThinking` so the two can be compared. -/
def thinkingClaimValue (t : String) : Option String :=
  match afterCI sentinelChars t.data with
  | none => none
  | some rest => some (List.asString (trimChars ((beforeCue rest).getD rest)))

/-! The simulated code executor `executeCode` (gemini.ts lines 284-329).
Its regexes `/print\(['"](.*)['"]\)/` and `/console\.log\(['"](.*)['"]\)/`
are modelled with an explicit leftmost-match, greedy-group scan. -/

/-- Single-quote character. -/
def quoteS : Char := Char.ofNat 39

/-- Double-quote character. -/
def quoteD : Char := Char.ofNat 34

/-- The `['"]` character class. -/
def isQuote (c : Char) : Bool := c = quoteS || c = quoteD

/-- JS line terminators that `.` does not match (ASCII part). -/
def isLineTerm (c : Char) : Bool := c = nl || c = crChar

/-- Whether a closing `['"]\)` matches at offset `k`. -/
def quoteCloseAt (rest : List Char) (k : Nat) : Bool :=
  match rest.drop k with
  | q :: c :: _ => isQuote q && c = ')'
  | _ => false

/-- Greedy backtracking of `(.*)`: try the longest group first, then
shrink until the closing `['"]\)` fits. -/
def tryFrom (rest : List Char) : Nat → Option (List Char)
  | 0 => if quoteCloseAt rest 0 then some [] else none
  | k + 1 => if quoteCloseAt rest (k + 1) then some (rest.take (k + 1)) else tryFrom rest k

/-- The `(.*)['"]\)` part of the call regexes, starting after the opening
quote: the group may not cross a line terminator. -/
def greedyQuoted (rest : List Char) : Option (List Char) :=
  tryFrom rest (List.length (rest.takeWhile (fun c => !isLineTerm c)))

/-- If the text begins with the pattern (case-sensitively), drops it. -/
def dropExact : List Char → List Char → Option (List Char)
  | [], t => some t
  | _ :: _, [] => none
  | p :: ps, c :: cs => if p = c then dropExact ps cs else none

/-- Attempt of a call regex (`print\(['"]…` or `console\.log\(['"]…`) at
the current position; `callPre` is the literal prefix up to and including
the opening parenthesis. -/
def matchCallAt (callPre s : List Char) : Option (List Char) :=
  match dropExact callPre s with
  | none => none
  | some t =>
    match t with
    | q :: rest => if isQuote q then greedyQuoted rest else none
    | [] => none

/-- Leftmost match of a call regex over the whole text. -/
def findCall (callPre : List Char) : List Char → Option (List Char)
  | [] => none
  | c :: cs =>
    match matchCallAt callPre (c :: cs) with
    | some g => some g
    | none => findCall callPre cs

/-- JS `String.prototype.startsWith` on characters. -/
def startsWithList : List Char → List Char → Bool
  | [], _ => true
  | _ :: _, [] => false
  | p :: ps, c :: cs => p = c && startsWithList ps cs

/-- JS `String.prototype.includes` on characters. -/
def jsIncludes (pat : List Char) : List Char → Bool
  | [] => startsWithList pat []
  | c :: cs => startsWithList pat (c :: cs) || jsIncludes pat cs

/-- The value the execution stub resolves with. -/
structure ExecResult where
  result : String
  status : String
deriving DecidableEq, Repr

/-- `executeCode` from gemini.ts lines 284-329.  Every branch resolves
with status `success`; the `catch`/reject path of the source guards pure
string operations that cannot throw, so it has no counterpart here. -/
def executeCode (language code : String) : ExecResult :=
  let src := code.data
  let result :=
    if language = "python" then
      if jsIncludes ("print".data) src then
        match findCall ("print(".data) src with
        | some g => List.asString g
        | none => "Output from Python code"
      else if jsIncludes ("sum".data) src || jsIncludes ("range".data) src then
        "Calculated sum: 1275"
      else if jsIncludes ("prime".data) src then
        "Sum of first 50 primes: 5117"
      else
        "Python code executed successfully"
    else if language = "javascript" || language = "js" then
      if jsIncludes ("console.log".data) src then
        match findCall ("console.log(".data) src with
        | some g => List.asString g
        | none => "Output from JavaScript code"
      else if jsIncludes ("Math.".data) src then
        "Calculated result: 42"
      else
        "JavaScript code executed successfully"
    else
      "Executed " ++ language ++ " code successfully"
  { result := result, status := "success" }

/-! Persistence helpers (`firebase.ts`).  `saveMessages` maps each
message to a storable record and then filters on `msg.isStreaming` —
a property the mapped objects no longer have. -/

/-- A stored code block: `{language, code}` only, execution results are
dropped to save space (firebase.ts lines 92-95). -/
structure StoredCodeBlock where
  language : String
  code : String
deriving DecidableEq, Repr

/-- A stored message record (firebase.ts lines 97-104): role, parts,
thinking, stripped code blocks, a `hasImages` value in place of the raw
images, and a write timestamp.  There is no `isStreaming` field and no
image payload field. -/
structure StoredMessage where
  role : Role
  parts : String
  thinking : Option String
  codeBlocks : Option (List StoredCodeBlock)
  hasImages : Option Bool
  timestamp : Nat
deriving DecidableEq, Repr

/-- Drops the execution fields of a code block. -/
def stripBlock (b : CodeBlock) : StoredCodeBlock :=
  { language := b.language, code := b.code }

/-- The map step of `saveMessages` (firebase.ts lines 86-104); `now` is
`Date.now()`.  `hasImages` is `message.images && message.images.length > 0`:
absent when `images` is absent, a boolean otherwise. -/
def toStored (now : Nat) (m : Message) : StoredMessage :=
  { role := m.role
    parts := m.parts
    thinking := m.thinking
    codeBlocks := m.codeBlocks.map (fun bs => bs.map stripBlock)
    hasImages := m.images.map (fun l => decide (0 < l.length))
    timestamp := now }

/-- Reading `msg.isStreaming` on a mapped record: the record has no such
property, so the access yields `undefined` (firebase.ts line 105). -/
def storedIsStreaming (_ : StoredMessage) : Option Bool := none

/-- The `.map(...).filter(msg => !msg.isStreaming)` pipeline of
`saveMessages` (firebase.ts lines 86-105). -/
def storableMessages (now : Nat) (messages : List Message) : List StoredMessage :=
  (messages.map (toStored now)).filter (fun m => !jsTruthy (storedIsStreaming m))

/-- The title derived from the first user message (firebase.ts lines
114-116): first 30 characters plus `...` when longer than 30, verbatim
otherwise. -/
def deriveTitle (parts : String) : String :=
  if 30 < parts.data.length then List.asString (parts.data.take 30) ++ "..." else parts

/-- The title written by the session update in `saveMessages` (lines
112-126): present exactly when the list is nonempty and its first
message is from the user. -/
def saveTitleUpdate : List Message → Option String
  | [] => none
  | m :: _ => if m.role = Role.user then some (deriveTitle m.parts) else none

/-! The session controller (`ChatContainer.tsx`).  The React state and
its updaters become explicit state-passing functions; messages read back
from the store carry no `isStreaming` flag and no image payloads. -/

/-- `ChatState` from `types.ts`. -/
structure ChatStateM where
  messages : List Message
  loading : Bool
  error : Option String
  currentSessionId : Option String
deriving DecidableEq, Repr

/-- The initial `useState` value of the controller. -/
def initialChatState : ChatStateM :=
  { messages := [], loading := false, error := none, currentSessionId := none }

/-- The user message built by `handleSendMessage` (lines 169-173). -/
def mkUserMessage (text : String) (imgs : Option (List ImageData)) : Message :=
  { role := Role.user, parts := text, images := imgs }

/-- The speculative empty model message (line 176). -/
def placeholderMessage : Message :=
  { role := Role.model, parts := "", isStreaming := some true }

/-- The first state update of `handleSendMessage` (lines 178-183):
append the user message and the streaming placeholder, set loading,
clear the error. -/
def sendStart (s : ChatStateM) (text : String) (imgs : Option (List ImageData)) : ChatStateM :=
  { s with
    messages := s.messages ++ [mkUserMessage text imgs, placeholderMessage]
    loading := true
    error := none }

/-- Applies `f` to the last element of the list, if any. -/
def mapLast (f : Message → Message) : List Message → List Message
  | [] => []
  | [m] => [f m]
  | m :: m' :: rest => m :: mapLast f (m' :: rest)

/-- The `onChunk` state update (lines 197-215): overwrite the last
message's parts, thinking and code blocks. -/
def chunkUpdate (s : ChatStateM) (chunk : String) (thinking : Option String)
    (codeBlocks : Option (List CodeBlock)) : ChatStateM :=
  { s with
    messages := mapLast
      (fun m => { m with parts := chunk, thinking := thinking, codeBlocks := codeBlocks })
      s.messages }

/-- The completion update (lines 226-240): clear the streaming flag on
the last message and stop loading. -/
def completeStream (s : ChatStateM) : ChatStateM :=
  { s with
    messages := mapLast (fun m => { m with isStreaming := some false }) s.messages
    loading := false }

/-- The error banner shown on a streaming failure (line 252). -/
def streamErrorText : String :=
  "Failed to generate response. Please check your API key and ensure it has access to the selected model."

/-- The catch-branch update of `handleSendMessage` (lines 241-255): pop
the speculative last message, stop loading, set the error banner. -/
def errorRollback (s : ChatStateM) : ChatStateM :=
  { s with
    messages := s.messages.dropLast
    loading := false
    error := some streamErrorText }

/-- A sequence of `onChunk` updates applied in order. -/
def applyChunks : List (String × Option String × Option (List CodeBlock)) → ChatStateM → ChatStateM
  | [], s => s
  | c :: cs, s => applyChunks cs (chunkUpdate s c.1 c.2.1 c.2.2)

/-- A message read back from the store (`getMessages` returns the stored
records): no `isStreaming` flag, no image payloads. -/
def fromStored (sm : StoredMessage) : Message :=
  { role := sm.role
    parts := sm.parts
    thinking := sm.thinking
    codeBlocks := sm.codeBlocks.map (fun bs => bs.map
      (fun b => { language := b.language, code := b.code }))
    timestamp := some sm.timestamp
    hasImages := sm.hasImages }

/-- `loadSession` (lines 101-122, success path): replace the message
list with the loaded records and switch the session id. -/
def loadState (s : ChatStateM) (stored : List StoredMessage) (sid : String) : ChatStateM :=
  { s with messages := stored.map fromStored, currentSessionId := some sid }

/-- `createNewSession` (lines 84-99, success path): empty message list,
fresh session id. -/
def createState (s : ChatStateM) (sid : String) : ChatStateM :=
  { s with messages := [], currentSessionId := some sid }

/-- One transition of the session controller.  `send` is guarded by
`loading = false` because `ChatInput` is rendered with
`disabled={chatState.loading}`, so a send cannot start while a stream is
in flight; the other updates can fire in any reachable order. -/
inductive Step : ChatStateM → ChatStateM → Prop where
  | send : ∀ s text imgs, s.loading = false → Step s (sendStart s text imgs)
  | chunk : ∀ s c th cb, Step s (chunkUpdate s c th cb)
  | complete : ∀ s, Step s (completeStream s)
  | failed : ∀ s, Step s (errorRollback s)
  | load : ∀ s stored sid, Step s (loadState s stored sid)
  | create : ∀ s sid, Step s (createState s sid)

/-- States reachable by the session controller. -/
inductive Reach : ChatStateM → Prop where
  | init : Reach initialChatState
  | step : ∀ s s', Reach s → Step s s' → Reach s'

/-- No message in the list is flagged as streaming. -/
def noStreaming (l : List Message) : Prop := ∀ m ∈ l, m.isStreaming ≠ some true

/-- Only the last message of the list may be flagged as streaming. -/
def onlyLastStreaming (l : List Message) : Prop := ∀ m ∈ l.dropLast, m.isStreaming ≠ some true

/-- Controller invariant: when not loading nothing streams, and a
streaming message can only sit at the end of the list. -/
def ChatInv (s : ChatStateM) : Prop :=
  (s.loading = false → noStreaming s.messages) ∧ onlyLastStreaming s.messages

/-- At most one message carries the in-progress streaming flag. -/
def atMostOneStreaming (l : List Message) : Prop :=
  l.countP (fun m => decide (m.isStreaming = some true)) ≤ 1

/-! Settings panel (`ChatSettingsPanel`) and the model capability table
(`types.ts`). -/

/-- `ChatSettings` from `types.ts`. -/
structure ChatSettings where
  model : String
  enableCodeExecution : Bool
  enableThinking : Bool
  enableVision : Bool
  systemInstruction : Option String := none
deriving DecidableEq, Repr

/-- `ModelOption` from `types.ts`; `supportsVision` is optional. -/
structure ModelOption where
  id : String
  name : String
  description : String
  supportsVision : Option Bool := none
deriving DecidableEq, Repr

/-- `GEMINI_MODELS` from `types.ts` lines 82-128. -/
def GEMINI_MODELS : List ModelOption :=
  [ { id := "gemini-1.5-flash", name := "Gemini 1.5 Flash"
      description := "Fast and efficient for most tasks", supportsVision := some true }
  , { id := "gemini-1.5-pro", name := "Gemini 1.5 Pro"
      description := "More powerful with higher quality responses", supportsVision := some true }
  , { id := "gemini-1.0-pro", name := "Gemini 1.0 Pro"
      description := "Original Gemini model" }
  , { id := "gemini-1.0-pro-vision", name := "Gemini 1.0 Pro Vision"
      description := "Original Gemini model with vision capabilities", supportsVision := some true }
  , { id := "gemini-2.0-flash", name := "Gemini 2.0 Flash"
      description := "Latest fast model with improved capabilities", supportsVision := some true }
  , { id := "gemini-2.0-flash-lite", name := "Gemini 2.0 Flash-Lite"
      description := "Lightweight version of Gemini 2.0 Flash" }
  , { id := "gemini-2.0-pro-experimental-02-05", name := "Gemini 2.0 Pro Experimental"
      description := "Experimental version of Gemini 2.0 Pro", supportsVision := some true }
  , { id := "gemini-2.0-flash-thinking-experimental-01-21", name := "Gemini 2.0 Flash Thinking"
      description := "Experimental model with enhanced thinking capabilities" } ]

/-- `handleModelChange` (ChatSettingsPanel lines 397-409):
`enableVision = selectedModel?.supportsVision ? settings.enableVision : false`. -/
def handleModelChange (settings : ChatSettings) (newModel : String) : ChatSettings :=
  let selectedModel := GEMINI_MODELS.find? (fun m => m.id == newModel)
  let enableVision :=
    match selectedModel with
    | some m => if jsTruthy m.supportsVision then settings.enableVision else false
    | none => false
  { settings with model := newModel, enableVision := enableVision }

/-! Lemmas about the fence scanner. -/

theorem asString_data (l : List Char) : (List.asString l).data = l := rfl

theorem scanF_nil (fuel : Nat) : scanBlocksF fuel [] = [] := by
  cases fuel <;> rfl

theorem scanF_cons_some {c : Char} {cs l b r : List Char} (fuel : Nat)
    (h : matchAt (c :: cs) = some (l, b, r)) :
    scanBlocksF (fuel + 1) (c :: cs) = mkBlock l b :: scanBlocksF fuel r := by
  simp [scanBlocksF, h]

theorem scanF_cons_none {c : Char} {cs : List Char} (fuel : Nat)
    (h : matchAt (c :: cs) = none) :
    scanBlocksF (fuel + 1) (c :: cs) = scanBlocksF fuel cs := by
  simp [scanBlocksF, h]

theorem takeWordRun_append_eq (s : List Char) : (takeWordRun s).1 ++ (takeWordRun s).2 = s := by
  induction s with
  | nil => rfl
  | cons c cs ih =>
    by_cases h : isWordChar c = true
    · simp [takeWordRun, h, ih]
    · simp [takeWordRun, h]

theorem takeWordRun_words (s : List Char) : ∀ c ∈ (takeWordRun s).1, isWordChar c := by
  induction s with
  | nil => intro c hc; simp [takeWordRun] at hc
  | cons a cs ih =>
    intro c hc
    by_cases h : isWordChar a = true
    · simp [takeWordRun, h] at hc
      rcases hc with hc | hc
      · exact hc ▸ h
      · exact ih c hc
    · simp [takeWordRun, h] at hc

theorem hasTicks3_shape {s : List Char} (h : hasTicks3 s = true) :
    s = bq :: bq :: bq :: s.drop 3 := by
  rcases s with _ | ⟨a, _ | ⟨b, _ | ⟨c, r⟩⟩⟩ <;>
    simp [hasTicks3, startsBq] at h ⊢
  · exact ⟨h.1.1, h.1.2, h.2⟩

theorem findClose_shape :
    ∀ {s b r : List Char}, findClose s = some (b, r) → s = b ++ bq :: bq :: bq :: r := by
  intro s
  induction s with
  | nil => intro b r h; simp [findClose] at h
  | cons a rest ih =>
    intro b r h
    by_cases ht : hasTicks3 (a :: rest) = true
    · rw [findClose, if_pos ht] at h
      obtain ⟨hb, hr⟩ : ([] : List Char) = b ∧ rest.drop 2 = r := by
        constructor <;> [exact congrArg Prod.fst (Option.some.inj h);
          exact congrArg Prod.snd (Option.some.inj h)]
      have hs := hasTicks3_shape ht
      simp at hs
      subst hb; subst hr
      simpa using hs
    · rw [findClose, if_neg ht] at h
      cases hfc : findClose rest with
      | none => rw [hfc] at h; simp at h
      | some p =>
        rw [hfc] at h
        simp at h
        obtain ⟨b', r'⟩ := p
        have := ih hfc
        rcases h with ⟨hb, hr⟩
        subst hb; subst hr
        simpa using this

theorem findClose_len {s b r : List Char} (h : findClose s = some (b, r)) :
    s.length = b.length + 3 + r.length := by
  have := findClose_shape h
  subst this
  simp [List.length_append]
  omega

theorem matchAt_shape {s l b r : List Char} (h : matchAt s = some (l, b, r)) :
    s = bq :: bq :: bq :: (l ++ nl :: (b ++ bq :: bq :: bq :: r)) ∧ ∀ c ∈ l, isWordChar c := by
  rw [matchAt] at h
  split at h
  · rename_i ht
    have hs := hasTicks3_shape ht
    rw [matchAfterTicks] at h
    split at h
    · rename_i w d r2 htw
      split at h
      · rename_i hd
        split at h
        · rename_i p hfc
          simp only [Option.some.injEq, Prod.mk.injEq] at h
          obtain ⟨hl, hb, hr⟩ := h
          subst hl; subst hb; subst hr; subst hd
          have hw := takeWordRun_append_eq (s.drop 3)
          rw [htw] at hw
          obtain ⟨b', r'⟩ := p
          have hshape := findClose_shape hfc
          subst hshape
          refine ⟨?_, ?_⟩
          · rw [hs]
            simp at hw ⊢
            exact hw.symm
          · have := takeWordRun_words (s.drop 3)
            rw [htw] at this
            exact this
        · exact absurd h (by simp)
      · exact absurd h (by simp)
    · exact absurd h (by simp)
  · exact absurd h (by simp)

theorem matchAt_len {s l b r : List Char} (h : matchAt s = some (l, b, r)) :
    r.length < s.length := by
  have hs := (matchAt_shape h).1
  subst hs
  simp [List.length_append]
  omega

theorem matchAt_none_head {c : Char} {cs : List Char} (h : ¬c = bq) :
    matchAt (c :: cs) = none := by
  simp [matchAt, hasTicks3, startsBq, h]

theorem bq_not_word : isWordChar bq = false := by decide

theorem nl_not_word : isWordChar nl = false := by decide

theorem takeWordRun_run {w : List Char} (d : Char) (r : List Char)
    (hw : ∀ c ∈ w, isWordChar c) (hd : isWordChar d = false) :
    takeWordRun (w ++ d :: r) = (w, d :: r) := by
  induction w with
  | nil => simp [takeWordRun, hd]
  | cons a w' ih =>
    have ha : isWordChar a = true := hw a (by simp)
    have ih' := ih (fun c hc => hw c (by simp [hc]))
    simp only [List.cons_append, takeWordRun, ha, if_true, List.append_eq]
    rw [ih']

theorem findClose_append {body : List Char} (t : List Char) (hb : ∀ c ∈ body, c ≠ bq) :
    findClose (body ++ bq :: bq :: bq :: t) = some (body, t) := by
  induction body with
  | nil =>
    simp only [List.nil_append]
    rw [findClose, if_pos (by simp [hasTicks3, startsBq])]
    simp
  | cons c body' ih =>
    have hc : ¬c = bq := hb c (by simp)
    simp only [List.cons_append]
    rw [findClose, if_neg (by simp [hasTicks3, startsBq, hc])]
    rw [ih (fun x hx => hb x (by simp [hx]))]
    rfl

theorem matchAt_render {lang body : List Char} (t : List Char)
    (hl : ∀ c ∈ lang, isWordChar c) (hb : ∀ c ∈ body, c ≠ bq) :
    matchAt (fenceOf lang body ++ t) = some (lang, body, t) := by
  have hshape : fenceOf lang body ++ t
      = bq :: bq :: bq :: (lang ++ nl :: (body ++ bq :: bq :: bq :: t)) := by
    simp [fenceOf]
  rw [hshape, matchAt, if_pos (by simp [hasTicks3, startsBq])]
  show matchAfterTicks (lang ++ nl :: (body ++ bq :: bq :: bq :: t)) = _
  rw [matchAfterTicks]
  rw [takeWordRun_run nl (body ++ bq :: bq :: bq :: t) hl nl_not_word]
  simp [findClose_append t hb]

theorem scanF_succ (fuel : Nat) :
    ∀ s : List Char, s.length ≤ fuel → scanBlocksF (fuel + 1) s = scanBlocksF fuel s := by
  induction fuel with
  | zero =>
    intro s h
    have : s = [] := List.eq_nil_of_length_eq_zero (Nat.le_zero.mp h)
    subst this
    simp [scanF_nil]
  | succ fuel ih =>
    intro s h
    match s with
    | [] => simp [scanF_nil]
    | c :: cs =>
      cases hm : matchAt (c :: cs) with
      | some triple =>
        obtain ⟨l, b, r⟩ := triple
        rw [scanF_cons_some (fuel + 1) hm, scanF_cons_some fuel hm]
        have hlen := matchAt_len hm
        simp at hlen h
        exact congrArg _ (ih r (by omega))
      | none =>
        rw [scanF_cons_none (fuel + 1) hm, scanF_cons_none fuel hm]
        simp at h
        exact ih cs (by omega)

theorem scanF_of_le : ∀ fuel : Nat, ∀ s : List Char, s.length ≤ fuel →
    scanBlocksF fuel s = scanBlocksF s.length s := by
  intro fuel
  induction fuel with
  | zero =>
    intro s h
    have : s = [] := List.eq_nil_of_length_eq_zero (Nat.le_zero.mp h)
    subst this
    rfl
  | succ fuel ih =>
    intro s h
    by_cases h' : s.length = fuel + 1
    · rw [h']
    · have hle : s.length ≤ fuel := by omega
      rw [scanF_succ fuel s hle]
      exact ih s hle

theorem extractL_cons_none {c : Char} {cs : List Char} (h : matchAt (c :: cs) = none) :
    extractL (c :: cs) = extractL cs := by
  show scanBlocksF (cs.length + 1) (c :: cs) = scanBlocksF cs.length cs
  rw [scanF_cons_none cs.length h]

theorem extractL_cons_some {c : Char} {cs l b r : List Char}
    (h : matchAt (c :: cs) = some (l, b, r)) :
    extractL (c :: cs) = mkBlock l b :: extractL r := by
  show scanBlocksF (cs.length + 1) (c :: cs) = mkBlock l b :: scanBlocksF r.length r
  rw [scanF_cons_some cs.length h]
  have hr : r.length ≤ cs.length := by
    have := matchAt_len h
    simp at this
    omega
  rw [scanF_of_le cs.length r hr]

theorem extractL_noTick {s : List Char} (h : ∀ c ∈ s, c ≠ bq) : extractL s = [] := by
  induction s with
  | nil => rfl
  | cons c cs ih =>
    rw [extractL_cons_none (matchAt_none_head (h c (by simp)))]
    exact ih (fun x hx => h x (by simp [hx]))

theorem extractL_append_noTick {sep : List Char} (t : List Char) (h : ∀ c ∈ sep, c ≠ bq) :
    extractL (sep ++ t) = extractL t := by
  induction sep with
  | nil => rfl
  | cons c cs ih =>
    rw [List.cons_append, extractL_cons_none (matchAt_none_head (h c (by simp)))]
    exact ih (fun x hx => h x (by simp [hx]))

theorem extractL_fence {lang body : List Char} (t : List Char)
    (hl : ∀ c ∈ lang, isWordChar c) (hb : ∀ c ∈ body, c ≠ bq) :
    extractL (fenceOf lang body ++ t) = mkBlock lang body :: extractL t := by
  have hm : matchAt (fenceOf lang body ++ t) = some (lang, body, t) := matchAt_render t hl hb
  have hshape : fenceOf lang body ++ t
      = bq :: (bq :: bq :: (lang ++ nl :: (body ++ [bq, bq, bq])) ++ t) := by
    simp [fenceOf]
  rw [hshape] at hm ⊢
  exact extractL_cons_some hm

theorem extractL_renderDoc (pieces : List (List Char × List Char × List Char))
    (tail : List Char) (h : ∀ p ∈ pieces, WFpiece p) :
    extractL (renderDoc pieces tail) = pieces.map pieceBlock ++ extractL tail := by
  induction pieces with
  | nil => simp [renderDoc]
  | cons p ps ih =>
    obtain ⟨sep, lang, body⟩ := p
    obtain ⟨hsep, hlang, hbody⟩ := h (sep, lang, body) (by simp)
    rw [renderDoc, List.append_assoc, extractL_append_noTick _ hsep,
      extractL_fence _ hlang hbody, ih (fun q hq => h q (by simp [hq]))]
    rfl

theorem matchAt_none_of_not_ticks {s : List Char} (h : hasTicks3 s = false) :
    matchAt s = none := by
  simp [matchAt, h]

theorem startsBq_cons (c : Char) (t : List Char) : startsBq (c :: t) = decide (c = bq) := rfl

theorem word_ne_bq {c : Char} (h : isWordChar c = true) : c ≠ bq := by
  intro hc
  rw [hc, bq_not_word] at h
  exact Bool.noConfusion h

theorem startsBq_run {lang : List Char} (pend : List Char)
    (h : ∀ c ∈ lang, isWordChar c) : startsBq (lang ++ nl :: pend) = false := by
  cases lang with
  | nil => simp [startsBq]; decide
  | cons a l' =>
    simp [startsBq]
    exact word_ne_bq (h a (by simp))

theorem noTick_run {lang pend : List Char}
    (hlang : ∀ c ∈ lang, isWordChar c) (hpend : ∀ c ∈ pend, c ≠ bq) :
    ∀ c ∈ lang ++ nl :: pend, c ≠ bq := by
  intro c hc
  rcases List.mem_append.mp hc with hc | hc
  · exact word_ne_bq (hlang c hc)
  · rcases List.mem_cons.mp hc with hc | hc
    · subst hc; decide
    · exact hpend c hc

theorem findClose_none_noTick {s : List Char} (h : ∀ c ∈ s, c ≠ bq) :
    findClose s = none := by
  induction s with
  | nil => rfl
  | cons a rest ih =>
    rw [findClose, if_neg (by simp [hasTicks3, startsBq, h a (by simp)])]
    rw [ih (fun x hx => h x (by simp [hx]))]
    rfl

theorem extractL_openUnclosed {lang pend : List Char}
    (hlang : ∀ c ∈ lang, isWordChar c) (hpend : ∀ c ∈ pend, c ≠ bq) :
    extractL (openFence lang ++ pend) = [] := by
  have hx : openFence lang ++ pend = bq :: bq :: bq :: (lang ++ nl :: pend) := by
    simp [openFence]
  have hsB : startsBq (lang ++ nl :: pend) = false := startsBq_run pend hlang
  have h0 : matchAt (bq :: bq :: bq :: (lang ++ nl :: pend)) = none := by
    rw [matchAt, if_pos (by simp [hasTicks3, startsBq])]
    show matchAfterTicks (lang ++ nl :: pend) = none
    rw [matchAfterTicks, takeWordRun_run nl pend hlang nl_not_word]
    simp [findClose_none_noTick hpend]
  have h1 : matchAt (bq :: bq :: (lang ++ nl :: pend)) = none := by
    apply matchAt_none_of_not_ticks
    simp [hasTicks3, startsBq_cons, hsB]
  have h2 : matchAt (bq :: (lang ++ nl :: pend)) = none := by
    apply matchAt_none_of_not_ticks
    simp [hasTicks3, startsBq_cons, hsB]
  rw [hx, extractL_cons_none h0, extractL_cons_none h1, extractL_cons_none h2]
  exact extractL_noTick (noTick_run hlang hpend)

theorem renderDoc_append (ps : List (List Char × List Char × List Char)) (a b : List Char) :
    renderDoc ps a ++ b = renderDoc ps (a ++ b) := by
  induction ps with
  | nil => rfl
  | cons p rest ih =>
    obtain ⟨sep, lang, body⟩ := p
    simp only [renderDoc, List.append_assoc, ih]

/-- Claim C1: for every accumulated text containing N well-formed
triple-backtick fences, `extractCodeBlocks` returns exactly N code blocks
in source order, each with source trimmed and language tag lower-cased
(or `"text"` when no tag is present); in particular the example input
yields one `python` block with source `print("hi")`. -/
theorem extract_wellFormed_blocks (pieces : List (List Char × List Char × List Char))
    (fin : List Char) (hp : ∀ p ∈ pieces, WFpiece p) (hfin : ∀ c ∈ fin, c ≠ bq) :
    extractCodeBlocks (List.asString (renderDoc pieces fin)) = pieces.map pieceBlock
    ∧ extractCodeBlocks "Sure:\n```python\nprint(\"hi\")\n```\n" =
        [{ language := "python", code := "print(\"hi\")" }] := by
  constructor
  · show extractL (renderDoc pieces fin) = _
    rw [extractL_renderDoc pieces fin hp, extractL_noTick hfin, List.append_nil]
  · decide

theorem extract_wellFormed_blocks_witness :
    extractCodeBlocks (List.asString (renderDoc [("A:\n".data, "js".data, "x\n".data)] "\n".data))
      = [{ language := "js", code := "x" }] := by
  have h := (extract_wellFormed_blocks [("A:\n".data, "js".data, "x\n".data)] "\n".data
    (by decide) (by decide)).1
  rw [h]
  decide

/-- Claim C2: for text ending in an unclosed trailing fence,
`extractCodeBlocks` returns only the blocks whose closing delimiter has
arrived (the unclosed one yields nothing), and extending the text so that
the trailing fence closes yields the same blocks plus one more:
extraction is monotonic in completed blocks as text grows at the end. -/
theorem extract_unclosed_monotonic (pieces : List (List Char × List Char × List Char))
    (sep lang pend fin : List Char)
    (hp : ∀ p ∈ pieces, WFpiece p)
    (hsep : ∀ c ∈ sep, c ≠ bq) (hlang : ∀ c ∈ lang, isWordChar c)
    (hpend : ∀ c ∈ pend, c ≠ bq) (hfin : ∀ c ∈ fin, c ≠ bq) :
    extractCodeBlocks (List.asString (renderDoc pieces (sep ++ openFence lang ++ pend)))
      = pieces.map pieceBlock
    ∧ extractCodeBlocks (List.asString
        (renderDoc pieces (sep ++ openFence lang ++ pend) ++ bq :: bq :: bq :: fin))
      = pieces.map pieceBlock ++ [mkBlock lang pend] := by
  constructor
  · show extractL (renderDoc pieces (sep ++ openFence lang ++ pend)) = _
    rw [extractL_renderDoc pieces _ hp, List.append_assoc,
      extractL_append_noTick _ hsep, extractL_openUnclosed hlang hpend, List.append_nil]
  · show extractL (renderDoc pieces (sep ++ openFence lang ++ pend) ++ bq :: bq :: bq :: fin) = _
    rw [renderDoc_append]
    have hflat : (sep ++ openFence lang ++ pend) ++ bq :: bq :: bq :: fin
        = sep ++ (fenceOf lang pend ++ fin) := by
      simp [openFence, fenceOf]
    rw [hflat, extractL_renderDoc pieces _ hp, extractL_append_noTick _ hsep,
      extractL_fence fin hlang hpend, extractL_noTick hfin]

theorem extract_unclosed_monotonic_witness :
    extractCodeBlocks (List.asString
      (renderDoc [] ("Sure:\n".data ++ openFence ("py".data) ++ "x = 1\n".data))) = []
    ∧ extractCodeBlocks (List.asString
        (renderDoc [] ("Sure:\n".data ++ openFence ("py".data) ++ "x = 1\n".data)
          ++ bq :: bq :: bq :: "\n".data))
      = [{ language := "py", code := "x = 1" }] := by
  have h := extract_unclosed_monotonic [] "Sure:\n".data "py".data "x = 1\n".data "\n".data
    (by decide) (by decide) (by decide) (by decide) (by decide)
  refine ⟨h.1, h.2.trans ?_⟩
  decide

/-- Claim C10: a fence is recognised only when the opening delimiter and
its optional tag are immediately followed by a newline (every successful
match has that shape), while the closing delimiter need not be preceded
by a newline; a single-line fence like ` ```x``` ` yields no block. -/
theorem matchAt_requires_newline :
    (∀ s l b r : List Char, matchAt s = some (l, b, r) →
      s = bq :: bq :: bq :: (l ++ nl :: (b ++ bq :: bq :: bq :: r)) ∧ ∀ c ∈ l, isWordChar c)
    ∧ extractCodeBlocks "```x```" = []
    ∧ extractCodeBlocks "```\nabc```" = [{ language := "text", code := "abc" }] := by
  refine ⟨fun s l b r h => matchAt_shape h, by decide, by decide⟩

theorem matchAt_requires_newline_witness :
    matchAt ("```\nabc```".data) = some ([], "abc".data, [])
    ∧ "```\nabc```".data
      = bq :: bq :: bq :: (([] : List Char) ++ nl :: ("abc".data ++ bq :: bq :: bq :: ([] : List Char))) := by
  have hm : matchAt ("```\nabc```".data) = some ([], "abc".data, []) := by decide
  exact ⟨hm, (matchAt_requires_newline.1 _ _ _ _ hm).1⟩

/-! Lemmas about the thinking extraction. -/

theorem sentinel_eq : sentinelChars = 'L' :: sentinelTail := rfl

theorem dropCI_self : ∀ p t : List Char, dropCI p (p ++ t) = some t := by
  intro p
  induction p with
  | nil => intro t; rfl
  | cons a ps ih =>
    intro t
    simp only [List.cons_append, dropCI, ciEq]
    rw [if_pos (by simp)]
    exact ih t

theorem dropCI_cons_none {p c : Char} {ps cs : List Char} (h : p.toLower ≠ c.toLower) :
    dropCI (p :: ps) (c :: cs) = none := by
  simp [dropCI, ciEq, h]

theorem afterCI_of_dropCI_some {pat : List Char} {c : Char} {cs R : List Char}
    (h : dropCI pat (c :: cs) = some R) : afterCI pat (c :: cs) = some R := by
  simp [afterCI, h]

theorem afterCI_pre {pre : List Char} (R : List Char)
    (hpre : ∀ c ∈ pre, c.toLower ≠ 'l') :
    afterCI sentinelChars (pre ++ (sentinelChars ++ R)) = some R := by
  induction pre with
  | nil =>
    have h := dropCI_self sentinelChars R
    rw [List.nil_append]
    rw [show sentinelChars ++ R = 'L' :: (sentinelTail ++ R) from rfl] at h ⊢
    exact afterCI_of_dropCI_some h
  | cons c pre' ih =>
    have hd : dropCI sentinelChars (c :: (pre' ++ (sentinelChars ++ R))) = none := by
      rw [sentinel_eq]
      exact dropCI_cons_none (fun hEq => (hpre c (by simp)) (by rw [← hEq]; decide))
    rw [List.cons_append, afterCI, hd]
    exact ih (fun x hx => hpre x (by simp [hx]))

theorem cueAt_cons_false {c : Char} (X : List Char)
    (hi : c.toLower ≠ 'i') (ht : c.toLower ≠ 't') : cueAt (c :: X) = false := by
  have h1 : dropCI ("In conclusion".data) (c :: X) = none := by
    rw [show ("In conclusion".data) = 'I' :: "n conclusion".data from rfl]
    exact dropCI_cons_none (fun hEq => hi (by rw [← hEq]; decide))
  have h2 : dropCI ("Therefore".data) (c :: X) = none := by
    rw [show ("Therefore".data) = 'T' :: "herefore".data from rfl]
    exact dropCI_cons_none (fun hEq => ht (by rw [← hEq]; decide))
  have h3 : dropCI ("To summarize".data) (c :: X) = none := by
    rw [show ("To summarize".data) = 'T' :: "o summarize".data from rfl]
    exact dropCI_cons_none (fun hEq => ht (by rw [← hEq]; decide))
  have h4 : dropCI ("In summary".data) (c :: X) = none := by
    rw [show ("In summary".data) = 'I' :: "n summary".data from rfl]
    exact dropCI_cons_none (fun hEq => hi (by rw [← hEq]; decide))
  have h5 : dropCI ("The answer is".data) (c :: X) = none := by
    rw [show ("The answer is".data) = 'T' :: "he answer is".data from rfl]
    exact dropCI_cons_none (fun hEq => ht (by rw [← hEq]; decide))
  simp [cueAt, cueStrs, startsCI, h1, h2, h3, h4, h5]

theorem beforeCue_none {mid : List Char}
    (hmid : ∀ c ∈ mid, c.toLower ≠ 'i' ∧ c.toLower ≠ 't') : beforeCue mid = none := by
  induction mid with
  | nil => rfl
  | cons c cs ih =>
    obtain ⟨hi, ht⟩ := hmid c (by simp)
    rw [beforeCue, if_neg (by simp [cueAt_cons_false cs hi ht])]
    rw [ih (fun x hx => hmid x (by simp [hx]))]
    rfl

theorem beforeCue_boundary {mid : List Char} {Y : List Char}
    (hmid : ∀ c ∈ mid, c.toLower ≠ 'i' ∧ c.toLower ≠ 't')
    (hY : cueAt Y = true) : beforeCue (mid ++ Y) = some mid := by
  induction mid with
  | nil =>
    cases Y with
    | nil => rw [show cueAt [] = false from rfl] at hY; exact Bool.noConfusion hY
    | cons y ys =>
      rw [List.nil_append, beforeCue, if_pos hY]
  | cons c cs ih =>
    obtain ⟨hi, ht⟩ := hmid c (by simp)
    rw [List.cons_append, beforeCue,
      if_neg (by simp [cueAt_cons_false (cs ++ Y) hi ht])]
    rw [ih (fun x hx => hmid x (by simp [hx]))]
    rfl

theorem cueAt_self {cue : String} (post : List Char) (hcue : cue ∈ cueStrs) :
    cueAt (cue.data ++ post) = true := by
  apply List.any_eq_true.mpr
  exact ⟨cue, hcue, by simp [startsCI, dropCI_self]⟩

/-- Claim C3, counterexample: on a preliminary response that contains the
sentinel but no terminating cue phrase, the claim predicts the trimmed
post-sentinel text, while the code's regex fails to match and the whole
response (sentinel included) is kept as the thinking text. -/
theorem thinking_claim_counterexample :
    thinkingClaimValue "Let me think through this step by step: abc because xyz."
      = some "abc because xyz."
    ∧ extractThinking "Let me think through this step by step: abc because xyz."
        = "Let me think through this step by step: abc because xyz."
    ∧ ("Let me think through this step by step: abc because xyz." : String)
        ≠ "abc because xyz." :=
  ⟨by decide, by decide, by decide⟩

/-- Claim C3 (amended): when thinking mode is enabled and the preliminary
response contains the sentinel followed somewhere later by a terminating
cue phrase, and the text captured between the sentinel and the first cue
is nonempty, the extracted thinking text is that captured text, trimmed;
when the capture is empty (the cue immediately follows the sentinel, so
`thinkingMatch[1]` is falsy) or when no cue phrase occurs after the
sentinel (the regex does not match), the preliminary response is kept
unchanged (the sentinel is not stripped). -/
theorem extractThinking_amended (pre mid post : List Char) (cue : String)
    (hcue : cue ∈ cueStrs)
    (hpre : ∀ c ∈ pre, c.toLower ≠ 'l')
    (hmid : ∀ c ∈ mid, c.toLower ≠ 'i' ∧ c.toLower ≠ 't') :
    (mid ≠ [] →
      extractThinking (List.asString (pre ++ (sentinelChars ++ (mid ++ cue.data ++ post))))
        = List.asString (trimChars mid))
    ∧ (mid = [] →
      extractThinking (List.asString (pre ++ (sentinelChars ++ (mid ++ cue.data ++ post))))
        = List.asString (pre ++ (sentinelChars ++ (mid ++ cue.data ++ post))))
    ∧ extractThinking (List.asString (pre ++ (sentinelChars ++ mid)))
      = List.asString (pre ++ (sentinelChars ++ mid)) := by
  have ha := afterCI_pre (mid ++ cue.data ++ post) hpre
  have hb : beforeCue (mid ++ cue.data ++ post) = some mid := by
    rw [List.append_assoc]
    exact beforeCue_boundary hmid (cueAt_self post hcue)
  refine ⟨?_, ?_, ?_⟩
  · intro hne
    simp only [extractThinking, asString_data, ha, hb]
    rw [if_neg hne]
  · intro he
    simp only [extractThinking, asString_data, ha, hb]
    rw [if_pos he]
  · have ha2 := afterCI_pre mid hpre
    have hb2 := beforeCue_none hmid
    simp only [extractThinking, asString_data, ha2, hb2]

theorem extractThinking_amended_witness :
    extractThinking (List.asString
      ("So. ".data ++ (sentinelChars ++ (" abc ".data ++ "Therefore".data ++ " done.".data))))
      = "abc"
    ∧ extractThinking (List.asString
        ("So. ".data ++ (sentinelChars ++ (([] : List Char) ++ "Therefore".data ++ " 4.".data))))
      = List.asString
        ("So. ".data ++ (sentinelChars ++ (([] : List Char) ++ "Therefore".data ++ " 4.".data)))
    ∧ extractThinking (List.asString ("So. ".data ++ (sentinelChars ++ " abc ".data)))
      = List.asString ("So. ".data ++ (sentinelChars ++ " abc ".data)) := by
  have h := extractThinking_amended "So. ".data " abc ".data " done.".data "Therefore"
    (by decide) (by decide) (by decide)
  have h0 := extractThinking_amended "So. ".data [] " 4.".data "Therefore"
    (by decide) (by decide) (by decide)
  exact ⟨(h.1 (by decide)).trans (by decide), h0.2.1 rfl, h.2.2⟩

/-! Lemmas about the controller state updates. -/

theorem data_append (s t : String) : (s ++ t).data = s.data ++ t.data := by
  rcases s with ⟨sd⟩
  rcases t with ⟨td⟩
  rfl

theorem mapLast_dropLast (f : Message → Message) :
    ∀ l : List Message, (mapLast f l).dropLast = l.dropLast
  | [] => rfl
  | [m] => rfl
  | m :: m' :: rest => by
    have ih := mapLast_dropLast f (m' :: rest)
    cases rest with
    | nil => simp [mapLast]
    | cons x xs =>
      rw [show mapLast f (m :: m' :: x :: xs) = m :: m' :: mapLast f (x :: xs) from rfl]
      rw [List.dropLast_cons₂, List.dropLast_cons₂, ← ih]
      rfl

theorem mapLast_concat (f : Message → Message) (l : List Message) (a : Message) :
    mapLast f (l ++ [a]) = l ++ [f a] := by
  induction l with
  | nil => rfl
  | cons m l' ih =>
    cases l' with
    | nil => rfl
    | cons x xs =>
      rw [show (m :: x :: xs) ++ [a] = m :: ((x :: xs) ++ [a]) from rfl]
      rw [show mapLast f (m :: (x :: xs ++ [a])) = m :: mapLast f (x :: xs ++ [a]) from rfl]
      rw [ih]
      rfl

theorem applyChunks_fields (chunks : List (String × Option String × Option (List CodeBlock))) :
    ∀ s : ChatStateM,
      (applyChunks chunks s).loading = s.loading
      ∧ (applyChunks chunks s).error = s.error
      ∧ (applyChunks chunks s).currentSessionId = s.currentSessionId
      ∧ (applyChunks chunks s).messages.dropLast = s.messages.dropLast := by
  induction chunks with
  | nil => intro s; exact ⟨rfl, rfl, rfl, rfl⟩
  | cons c cs ih =>
    intro s
    have h := ih (chunkUpdate s c.1 c.2.1 c.2.2)
    refine ⟨h.1, h.2.1, h.2.2.1, h.2.2.2.trans ?_⟩
    show (mapLast _ s.messages).dropLast = s.messages.dropLast
    exact mapLast_dropLast _ s.messages

/-- Claim C4: if the streaming exchange fails, the speculative empty
model placeholder is removed, the error banner is set and loading stops;
the remaining list is the pre-send list plus the user's message — for any
state, prompt, attached images and any number of chunk updates received
before the failure. -/
theorem sendFailure_rollback (s : ChatStateM) (text : String) (imgs : Option (List ImageData))
    (chunks : List (String × Option String × Option (List CodeBlock))) :
    (errorRollback (applyChunks chunks (sendStart s text imgs))).messages
        = s.messages ++ [mkUserMessage text imgs]
    ∧ (errorRollback (applyChunks chunks (sendStart s text imgs))).loading = false
    ∧ (errorRollback (applyChunks chunks (sendStart s text imgs))).error = some streamErrorText := by
  refine ⟨?_, rfl, rfl⟩
  show (applyChunks chunks (sendStart s text imgs)).messages.dropLast = _
  rw [(applyChunks_fields chunks (sendStart s text imgs)).2.2.2]
  show (s.messages ++ [mkUserMessage text imgs, placeholderMessage]).dropLast = _
  rw [show s.messages ++ [mkUserMessage text imgs, placeholderMessage]
    = (s.messages ++ [mkUserMessage text imgs]) ++ [placeholderMessage] by simp]
  exact List.dropLast_concat

/-- Claim C5: the session title derived from a first user message is the
first 30 characters followed by `...` when the message is longer than 30
characters, and the message verbatim otherwise. -/
theorem saveTitle_spec (m : Message) (rest : List Message) (h : m.role = Role.user) :
    saveTitleUpdate (m :: rest) = some (deriveTitle m.parts)
    ∧ (30 < m.parts.data.length →
        (deriveTitle m.parts).data = m.parts.data.take 30 ++ ('.' :: '.' :: '.' :: []))
    ∧ (m.parts.data.length ≤ 30 → deriveTitle m.parts = m.parts) := by
  refine ⟨by simp [saveTitleUpdate, h], ?_, ?_⟩
  · intro hlen
    rw [deriveTitle, if_pos hlen, data_append, asString_data]
  · intro hlen
    rw [deriveTitle, if_neg (by omega)]

theorem saveTitle_spec_witness :
    saveTitleUpdate [{ role := Role.user, parts := "0123456789012345678901234567890123456789" }]
      = some (deriveTitle "0123456789012345678901234567890123456789")
    ∧ deriveTitle "0123456789012345678901234567890123456789"
      = "012345678901234567890123456789..." := by
  have h := saveTitle_spec
    { role := Role.user, parts := "0123456789012345678901234567890123456789" } [] rfl
  exact ⟨h.1, by decide⟩

/-- Claim C7: for every language tag and source text, `executeCode`
resolves with status `success` — with a generic "executed successfully"
message for inputs not matching its superficial patterns.  Every step of
the simulated execution is a total string operation, so the source's
catch branch (status `error` with the stringified exception) is
unreachable and the call never fails in any other way. -/
theorem executeCode_always_success (language code : String) :
    (executeCode language code).status = "success"
    ∧ (language ≠ "python" → language ≠ "javascript" → language ≠ "js" →
        (executeCode language code).result = "Executed " ++ language ++ " code successfully")
    ∧ (language = "python" →
        jsIncludes ("print".data) code.data = false →
        jsIncludes ("sum".data) code.data = false →
        jsIncludes ("range".data) code.data = false →
        jsIncludes ("prime".data) code.data = false →
        (executeCode language code).result = "Python code executed successfully")
    ∧ ((language = "javascript" ∨ language = "js") →
        jsIncludes ("console.log".data) code.data = false →
        jsIncludes ("Math.".data) code.data = false →
        (executeCode language code).result = "JavaScript code executed successfully") := by
  refine ⟨rfl, ?_, ?_, ?_⟩
  · intro h1 h2 h3
    simp [executeCode, h1, h2, h3]
  · intro h1 h2 h3 h4 h5
    subst h1
    simp [executeCode, h2, h3, h4, h5]
  · intro h1 h2 h3
    rcases h1 with h1 | h1 <;> subst h1 <;> simp [executeCode, h2, h3]

theorem executeCode_always_success_witness :
    (executeCode "ruby" "x").status = "success"
    ∧ (executeCode "ruby" "x").result = "Executed ruby code successfully"
    ∧ (executeCode "python" "a = 1").result = "Python code executed successfully" := by
  have h1 := executeCode_always_success "ruby" "x"
  have h2 := executeCode_always_success "python" "a = 1"
  exact ⟨h1.1, h1.2.1 (by decide) (by decide) (by decide),
    h2.2.2.1 rfl (by decide) (by decide) (by decide) (by decide)⟩

/-- Claim C8: selecting a model whose capability entry lacks the
vision-support flag forces `enableVision` to `false` regardless of its
previous value, while selecting a vision-capable model preserves the
previous value. -/
theorem modelChange_vision (settings : ChatSettings) (newModel : String) (m : ModelOption)
    (h : GEMINI_MODELS.find? (fun mo => mo.id == newModel) = some m) :
    (m.supportsVision = none → (handleModelChange settings newModel).enableVision = false)
    ∧ (m.supportsVision = some true →
        (handleModelChange settings newModel).enableVision = settings.enableVision)
    ∧ (handleModelChange settings newModel).model = newModel := by
  refine ⟨?_, ?_, rfl⟩
  · intro hv
    simp [handleModelChange, h, hv, jsTruthy]
  · intro hv
    simp [handleModelChange, h, hv, jsTruthy]

theorem modelChange_vision_witness :
    (handleModelChange
      { model := "gemini-1.5-flash", enableCodeExecution := false,
        enableThinking := false, enableVision := true } "gemini-1.0-pro").enableVision = false
    ∧ (handleModelChange
      { model := "gemini-1.0-pro", enableCodeExecution := false,
        enableThinking := false, enableVision := true } "gemini-1.5-pro").enableVision = true := by
  have h1 := modelChange_vision
    { model := "gemini-1.5-flash", enableCodeExecution := false,
      enableThinking := false, enableVision := true } "gemini-1.0-pro"
    { id := "gemini-1.0-pro", name := "Gemini 1.0 Pro",
      description := "Original Gemini model" } (by decide)
  have h2 := modelChange_vision
    { model := "gemini-1.0-pro", enableCodeExecution := false,
      enableThinking := false, enableVision := true } "gemini-1.5-pro"
    { id := "gemini-1.5-pro", name := "Gemini 1.5 Pro",
      description := "More powerful with higher quality responses",
      supportsVision := some true } (by decide)
  exact ⟨h1.1 rfl, (h2.2.1 rfl).trans rfl⟩

/-- Claim C9: `saveMessages` writes exactly one stored record per input
message — the `.filter(msg => !msg.isStreaming)` runs after a map whose
output objects carry no `isStreaming` field, so the access yields
`undefined` (falsy) and the filter removes nothing, streaming messages
included.  Each stored record carries role, parts, thinking, code blocks
stripped of execution results, the `hasImages` value and a timestamp, and
is independent of the streaming flag and of the image payloads. -/
theorem saveMessages_storesAll (now : Nat) (msgs : List Message) :
    storableMessages now msgs = msgs.map (toStored now)
    ∧ (storableMessages now msgs).length = msgs.length
    ∧ (∀ (m : Message) (b : Option Bool),
        toStored now { m with isStreaming := b } = toStored now m)
    ∧ (∀ (m : Message) (imgs imgsB : List ImageData), (imgs = [] ↔ imgsB = []) →
        toStored now { m with images := some imgs }
          = toStored now { m with images := some imgsB })
    ∧ (∀ m : Message, (toStored now m).codeBlocks
        = m.codeBlocks.map (fun bs => bs.map stripBlock))
    ∧ (∀ m : Message, jsTruthy (toStored now m).hasImages = true
        ↔ ∃ l, m.images = some l ∧ l ≠ []) := by
  have hall : storableMessages now msgs = msgs.map (toStored now) := by
    rw [storableMessages]
    exact List.filter_eq_self.mpr (fun a _ => by simp [storedIsStreaming, jsTruthy])
  refine ⟨hall, by rw [hall, List.length_map], fun m b => rfl, ?_, fun m => rfl, ?_⟩
  · intro m imgs imgsB hiff
    simp only [toStored, Option.map_some]
    have hlen : (0 < imgs.length) ↔ (0 < imgsB.length) := by
      rw [List.length_pos, List.length_pos]
      exact not_congr hiff
    simp [hlen]
  · intro m
    cases him : m.images with
    | none => simp [toStored, him, jsTruthy]
    | some l =>
      simp [toStored, him, jsTruthy, List.length_pos]

theorem saveMessages_storesAll_witness :
    storableMessages 5 [{ role := Role.model, parts := "hi", isStreaming := some true }]
      = [{ role := Role.model, parts := "hi", thinking := none, codeBlocks := none,
           hasImages := none, timestamp := 5 }]
    ∧ toStored 5 { role := Role.user, parts := "p",
                   images := some [{ dataUrl := "d1", mimeType := "png" }] }
        = toStored 5 { role := Role.user, parts := "p",
                       images := some [{ dataUrl := "other", mimeType := "jpg" }] } := by
  have h := saveMessages_storesAll 5
    [{ role := Role.model, parts := "hi", isStreaming := some true }]
  refine ⟨h.1.trans (by decide), ?_⟩
  exact h.2.2.2.1 { role := Role.user, parts := "p" }
    [{ dataUrl := "d1", mimeType := "png" }] [{ dataUrl := "other", mimeType := "jpg" }]
    (by simp)

theorem mapLast_cases (f : Message → Message) (l : List Message) :
    l = [] ∨ ∃ l' a, l = l' ++ [a] ∧ mapLast f l = l' ++ [f a] ∧ l.dropLast = l' := by
  rcases List.eq_nil_or_concat l with h | ⟨l', a, h⟩
  · exact Or.inl h
  · rw [List.concat_eq_append] at h
    exact Or.inr ⟨l', a, h, by rw [h, mapLast_concat], by rw [h, List.dropLast_concat]⟩

theorem step_preserves_inv {s s' : ChatStateM} (hs : ChatInv s) (st : Step s s') :
    ChatInv s' := by
  cases st with
  | send text imgs hload =>
    constructor
    · intro h
      simp [sendStart] at h
    · intro m hm
      rw [show (sendStart s text imgs).messages
        = s.messages ++ [mkUserMessage text imgs, placeholderMessage] from rfl] at hm
      rw [show s.messages ++ [mkUserMessage text imgs, placeholderMessage]
        = (s.messages ++ [mkUserMessage text imgs]) ++ [placeholderMessage] by simp,
        List.dropLast_concat] at hm
      rcases List.mem_append.mp hm with hm | hm
      · exact hs.1 hload m hm
      · rw [List.mem_singleton.mp hm]
        simp [mkUserMessage]
  | chunk c th cb =>
    have hmsg : (chunkUpdate s c th cb).messages
        = mapLast (fun m => { m with parts := c, thinking := th, codeBlocks := cb })
            s.messages := rfl
    constructor
    · intro h
      have hns := hs.1 h
      intro m hm
      rw [hmsg] at hm
      rcases mapLast_cases (fun m => { m with parts := c, thinking := th, codeBlocks := cb })
        s.messages with he | ⟨l', a, hl, hme, _⟩
      · rw [he] at hm; simp [mapLast] at hm
      · rw [hme] at hm
        rcases List.mem_append.mp hm with hm | hm
        · exact hns m (by rw [hl]; exact List.mem_append.mpr (Or.inl hm))
        · rw [List.mem_singleton.mp hm]
          exact hns a (by rw [hl]; simp)
    · intro m hm
      rw [hmsg, mapLast_dropLast] at hm
      exact hs.2 m hm
  | complete =>
    have hmsg : (completeStream s).messages
        = mapLast (fun m => { m with isStreaming := some false }) s.messages := rfl
    constructor
    · intro _
      intro m hm
      rw [hmsg] at hm
      rcases mapLast_cases (fun m => { m with isStreaming := some false })
        s.messages with he | ⟨l', a, hl, hme, hd⟩
      · rw [he] at hm; simp [mapLast] at hm
      · rw [hme] at hm
        rcases List.mem_append.mp hm with hm | hm
        · exact hs.2 m (by rw [← hd] at hm; exact hm)
        · rw [List.mem_singleton.mp hm]
          simp
    · intro m hm
      rw [hmsg, mapLast_dropLast] at hm
      exact hs.2 m hm
  | failed =>
    constructor
    · intro _
      exact hs.2
    · intro m hm
      exact hs.2 m (List.dropLast_subset _ hm)
  | load stored sid =>
    constructor
    · intro _
      intro m hm
      rcases List.mem_map.mp hm with ⟨sm, _, hsm⟩
      rw [← hsm]
      simp [fromStored]
    · intro m hm
      rcases List.mem_map.mp (List.dropLast_subset _ hm) with ⟨sm, _, hsm⟩
      rw [← hsm]
      simp [fromStored]
  | create sid =>
    constructor
    · intro _
      intro m hm
      simp [createState] at hm
    · intro m hm
      simp [createState] at hm

theorem reach_inv {s : ChatStateM} (h : Reach s) : ChatInv s := by
  induction h with
  | init =>
    constructor
    · intro _ m hm
      simp [initialChatState] at hm
    · intro m hm
      simp [initialChatState] at hm
  | step s s' _ hst ih => exact step_preserves_inv ih hst

theorem onlyLast_atMostOne {l : List Message} (h : onlyLastStreaming l) :
    atMostOneStreaming l := by
  rcases List.eq_nil_or_concat l with hl | ⟨l', a, hl⟩
  · subst hl
    simp [atMostOneStreaming]
  · rw [List.concat_eq_append] at hl
    subst hl
    show List.countP _ (l' ++ [a]) ≤ 1
    rw [List.countP_append]
    have hz : l'.countP (fun m => decide (m.isStreaming = some true)) = 0 := by
      apply List.countP_eq_zero.mpr
      intro m hm
      simp only [decide_eq_true_eq]
      exact h m (by rw [List.dropLast_concat]; exact hm)
    have h1 : List.countP (fun m => decide (m.isStreaming = some true)) [a] ≤ 1 := by
      rw [List.countP_cons, List.countP_nil]
      split <;> omega
    omega

/-- Claim C6: in every reachable controller state at most one message
carries the in-progress streaming flag, and each in-session update only
appends messages, rewrites the in-progress last message, or removes it:
the committed prefix (everything but the last entry) is never reordered
or dropped. -/
theorem controller_invariant :
    (∀ s : ChatStateM, Reach s → atMostOneStreaming s.messages)
    ∧ (∀ (s : ChatStateM) (text : String) (imgs : Option (List ImageData)),
        ∃ t, s.messages ++ t = (sendStart s text imgs).messages)
    ∧ (∀ (s : ChatStateM) (c : String) (th : Option String) (cb : Option (List CodeBlock)),
        ∃ t, s.messages.dropLast ++ t = (chunkUpdate s c th cb).messages)
    ∧ (∀ s : ChatStateM, ∃ t, s.messages.dropLast ++ t = (completeStream s).messages)
    ∧ (∀ s : ChatStateM, (errorRollback s).messages = s.messages.dropLast) := by
  refine ⟨fun s hr => onlyLast_atMostOne (reach_inv hr).2, ?_, ?_, ?_, fun s => rfl⟩
  · intro s text imgs
    exact ⟨[mkUserMessage text imgs, placeholderMessage], rfl⟩
  · intro s c th cb
    rcases mapLast_cases (fun m => { m with parts := c, thinking := th, codeBlocks := cb })
      s.messages with he | ⟨l', a, _, hme, hd⟩
    · refine ⟨[], ?_⟩
      rw [show (chunkUpdate s c th cb).messages
        = mapLast (fun m => { m with parts := c, thinking := th, codeBlocks := cb })
            s.messages from rfl, he]
      rfl
    · refine ⟨[{ a with parts := c, thinking := th, codeBlocks := cb }], ?_⟩
      rw [show (chunkUpdate s c th cb).messages
        = mapLast (fun m => { m with parts := c, thinking := th, codeBlocks := cb })
            s.messages from rfl, hme, hd]
  · intro s
    rcases mapLast_cases (fun m => { m with isStreaming := some false })
      s.messages with he | ⟨l', a, _, hme, hd⟩
    · refine ⟨[], ?_⟩
      rw [show (completeStream s).messages
        = mapLast (fun m => { m with isStreaming := some false }) s.messages from rfl, he]
      rfl
    · refine ⟨[{ a with isStreaming := some false }], ?_⟩
      rw [show (completeStream s).messages
        = mapLast (fun m => { m with isStreaming := some false }) s.messages from rfl, hme, hd]

theorem controller_invariant_witness :
    atMostOneStreaming (sendStart initialChatState "hi" none).messages :=
  controller_invariant.1 (sendStart initialChatState "hi" none)
    (Reach.step initialChatState (sendStart initialChatState "hi" none) Reach.init
      (Step.send initialChatState "hi" none rfl))
